import Mathlib

/-!
Verification of the `license-preamble` tool.

A shallow embedding of `src/main.rs` of the `license-preamble` repository:
a CLI that resolves a license from an embedded catalog (`init`), lists the
catalog (`list`), and prepends a comment-formatted license preamble to
source files under a set of root directories (`add`).

Strings are modelled as Lean `String`s (lists of characters); the Rust
string primitives used by the program (`str::lines`, `str::trim`,
`str::contains`, `Path::extension`) are embedded as executable functions
over `List Char` below, following their documented Rust semantics.
-/

/-- Rust `char::is_whitespace`: the Unicode `White_Space` property. -/
def rustIsWhitespace (c : Char) : Bool :=
  let n := c.toNat
  n == 0x9 || n == 0xA || n == 0xB || n == 0xC || n == 0xD || n == 0x20 ||
  n == 0x85 || n == 0xA0 || n == 0x1680 || (0x2000 ≤ n && n ≤ 0x200A) ||
  n == 0x2028 || n == 0x2029 || n == 0x202F || n == 0x205F || n == 0x3000

/-- Drop leading whitespace (Rust `str::trim_start`), on character lists. -/
def trimStartL (l : List Char) : List Char := l.dropWhile rustIsWhitespace

/-- Drop trailing whitespace (Rust `str::trim_end`), on character lists. -/
def trimEndL (l : List Char) : List Char :=
  (l.reverse.dropWhile rustIsWhitespace).reverse

/-- Rust `str::trim`: drop leading and trailing whitespace. -/
def trimL (l : List Char) : List Char := trimEndL (trimStartL l)

/-- Split a character list at every occurrence of the separator character;
always returns a non-empty list of pieces (the pieces between separators). -/
def splitCh (sep : Char) : List Char → List (List Char)
  | [] => [[]]
  | c :: rest =>
    if c = sep then [] :: splitCh sep rest
    else
      match splitCh sep rest with
      | [] => [[c]]
      | p :: ps => (c :: p) :: ps

/-- Split a character list at every line-feed character. -/
def splitNL : List Char → List (List Char) := splitCh '\n'

/-- Remove a single trailing carriage return, if present
(Rust `strip_suffix` of a carriage return inside `str::lines`). -/
def stripCRL (l : List Char) : List Char :=
  if l.getLast? = some '\r' then l.dropLast else l

/-- Rust `str::lines` on character lists: lines are split at `\n` or
`\r\n`; terminators are not included; the final line ending is optional;
a lone trailing carriage return with no following line feed is kept. -/
def rustLinesL (l : List Char) : List (List Char) :=
  if l = [] then []
  else if l.getLast? = some '\n' then ((splitNL l).dropLast).map stripCRL
  else ((splitNL l).dropLast).map stripCRL ++ [(splitNL l).getLastD []]

/-- Rust `str::lines` on strings. -/
def rustLines (s : String) : List String := (rustLinesL s.data).map String.mk

/-- The preamble formatter of `Commands::Add` (character-list level):
`preamble_contents.lines().map(|line| format!("{comment_syntax} {line}").trim().to_string()).collect::<Vec<String>>().join("\n")`. -/
def formatPreambleL (commentSyntax preamble : List Char) : List Char :=
  List.intercalate ['\n']
    ((rustLinesL preamble).map (fun line => trimL (commentSyntax ++ ' ' :: line)))

/-- The preamble formatter of `Commands::Add`, as a function on strings:
the `prefixed_preamble` computed for a given comment syntax. -/
def formatPreamble (commentSyntax preamble : String) : String :=
  ⟨formatPreambleL commentSyntax.data preamble.data⟩

/-- Substring test on character lists: `needle` occurs contiguously in
`hay` (semantics of Rust `str::contains` with a string pattern). -/
def containsSubL (needle : List Char) : List Char → Bool
  | [] => needle.isPrefixOf []
  | c :: rest => needle.isPrefixOf (c :: rest) || containsSubL needle rest

/-- Rust `str::contains`: `strContains hay needle` is true iff `needle`
is a contiguous substring of `hay`. -/
def strContains (hay needle : String) : Bool := containsSubL needle.data hay.data

/-- The metadata block of one embedded license document
(struct `LicenseInfo` in `main.rs`). -/
structure LicenseInfo where
  title : String
  description : String
  how : String
  using_ : Option (List (String × String))
  permissions : List String
  conditions : List String
  limitations : List String
  featured : Option Bool
  spdx_id : String
deriving DecidableEq

/-- A parsed license document: YAML front-matter metadata plus the license
body text (`yaml_front_matter::Document<LicenseInfo>`). -/
structure Document where
  metadata : LicenseInfo
  content : String
deriving DecidableEq

/-- The license lookup of `Commands::Init`:
`licenses.iter().find(|document| info.title == license || info.spdx_id == license)`. -/
def findLicense (licenses : List Document) (license : String) : Option Document :=
  licenses.find? (fun document =>
    document.metadata.title == license || document.metadata.spdx_id == license)

/-- The message of the `expect` on the license lookup in `Commands::Init`. -/
def invalidLicenseMsg : String := "Invalid license, list available licenses with `list`"

/-- License resolution as performed by `Commands::Init`: the `find` plus the
`expect`, with the panic embedded as an `Except.error` carrying the panic
message. -/
def resolveLicense (licenses : List Document) (license : String) : Except String Document :=
  match findLicense licenses license with
  | some document => Except.ok document
  | none => Except.error invalidLicenseMsg

/-- The fixed extension table of `Commands::Add`. -/
def extensions : List (String × String) :=
  [("rs", "//"), ("swift", "//"), ("js", "//"), ("ts", "//"), ("tsx", "//"), ("jsx", "//")]

/-- Rust `Path::extension` on a file name (the portion after the last dot
of the file name; `none` when there is no embedded dot or when the name
begins with a dot and has no other dot). -/
def pathExtension (name : String) : Option String :=
  match splitCh '.' name.data with
  | [] => none
  | [_] => none
  | [] :: [_] => none
  | _ :: rest => some (String.mk (rest.getLastD []))

/-- The comment syntax chosen for a file, mirroring
`path.extension().and_then(|s| s.to_str())` followed by
`extensions.iter().find(|(e, _)| *e == extension)` in `Commands::Add`. -/
def commentSyntaxFor (name : String) : Option String :=
  (pathExtension name).bind fun ext =>
    (extensions.find? (fun entry => entry.1 == ext)).map (fun entry => entry.2)

/-- A regular file seen by the tree walker: its file name (the walker only
visits entries whose `file_type` is a regular file) and its full text
contents. -/
structure SrcFile where
  name : String
  contents : String
deriving DecidableEq

/-- What `Commands::Add` did to one visited file. -/
inductive FileAction where
  /-- No extension, or extension not in the table: no side effect. -/
  | noRule : FileAction
  /-- The formatted block is already contained in the file: `Skipping` is
  printed and no write occurs. -/
  | skipped : FileAction
  /-- The file is rewritten with the block prepended. -/
  | written : FileAction
deriving DecidableEq

/-- The per-file body of the walk loop in `Commands::Add`: compute the
comment syntax from the extension table, format the preamble, test
containment, and either skip or rewrite the file as
`format!("{prefixed_preamble}\n\n{file_contents}")`. -/
def processFile (preambleContents : String) (f : SrcFile) : SrcFile × FileAction :=
  match commentSyntaxFor f.name with
  | none => (f, FileAction.noRule)
  | some commentSyntax =>
    let prefixedPreamble := formatPreamble commentSyntax preambleContents
    if strContains f.contents prefixedPreamble then (f, FileAction.skipped)
    else ({ f with contents := prefixedPreamble ++ "\n\n" ++ f.contents }, FileAction.written)

/-- One source root as seen by `Commands::Add`: `none` models a root whose
`std::fs::metadata` fails (the root does not exist and the loop `continue`s);
`some files` models an existing root with its regular files. -/
def processRoot (preambleContents : String) (root : Option (List SrcFile)) :
    Option (List SrcFile) :=
  root.map (fun files => files.map (fun f => (processFile preambleContents f).1))

/-- The walk over all source roots of `Commands::Add`, given the contents of
the `PREAMBLE` file. -/
def runAdd (preambleContents : String) (roots : List (Option (List SrcFile))) :
    List (Option (List SrcFile)) :=
  roots.map (processRoot preambleContents)

/-- `Commands::Add` end to end: `preamble` is the contents of the `PREAMBLE`
file when it exists (`none` when `preamble_path.exists()` is false, in which
case the code panics with `"Run init first"` before touching any root). -/
def addCommand (preamble : Option String) (roots : List (Option (List SrcFile))) :
    Except String (List (Option (List SrcFile))) :=
  match preamble with
  | none => Except.error "Run init first"
  | some preambleContents => Except.ok (runAdd preambleContents roots)

/-- The default source roots of `Commands::Add` when none are supplied. -/
def defaultRoots : List String := ["src", "lib"]

/-- The formatter algorithm as worded by the specification (§4.4), for
comparison with `formatPreambleL`: split the preamble text into lines on
line-feed boundaries (a final line ending terminates the last line rather
than opening an empty one, so the empty text has no lines). This splitting
is stated independently of the Rust `str::lines` embedding: no
carriage-return handling is performed here. -/
def specLinesL (l : List Char) : List (List Char) :=
  if l = [] then []
  else if l.getLast? = some '\n' then (splitNL l).dropLast
  else splitNL l

/-- The formatter algorithm as worded by the specification (§4.4): for each
line, concatenate the comment prefix, a single space, and the line content,
then strip trailing whitespace from the result; rejoin the lines with a
single line-feed separator. -/
def specFormattedBlockL (commentSyntax preamble : List Char) : List Char :=
  List.intercalate ['\n']
    ((specLinesL preamble).map (fun line => trimEndL (commentSyntax ++ ' ' :: line)))

/-- `specFormattedBlockL` lifted to strings. -/
def specFormattedBlock (commentSyntax preamble : String) : String :=
  ⟨specFormattedBlockL commentSyntax.data preamble.data⟩

/-- An abbreviated stand-in for one parsed catalog entry (the embedded
license documents themselves live outside the core source file), used to
exercise the resolver on concrete inputs. -/
def sampleMIT : Document :=
  Document.mk
    (LicenseInfo.mk "MIT License" "A short and simple permissive license"
      "Create a text file" none ["commercial-use"] ["include-copyright"]
      ["liability"] (some true) "MIT")
    "MIT License\n\nCopyright (c) [year] [fullname]"

/-! Supporting lemmas. -/

theorem isPrefixOf_append_self (l t : List Char) : l.isPrefixOf (l ++ t) = true := by
  induction l with
  | nil => simp
  | cons c cs ih => simp [List.isPrefixOf_cons₂, ih]

theorem containsSubL_of_isPrefixOf {n h : List Char} (hp : n.isPrefixOf h = true) :
    containsSubL n h = true := by
  cases h with
  | nil => simpa [containsSubL] using hp
  | cons c rest => simp [containsSubL, hp]

theorem containsSubL_append_self (n t : List Char) : containsSubL n (n ++ t) = true :=
  containsSubL_of_isPrefixOf (isPrefixOf_append_self n t)

theorem strContains_empty_needle (s : String) : strContains s "" = true := by
  have : ("" : String).data = [] := rfl
  unfold strContains
  rw [this]
  exact containsSubL_of_isPrefixOf (by simp)

theorem strContains_append₂ (b s t : String) : strContains (b ++ s ++ t) b = true := by
  unfold strContains
  have hdata : (b ++ s ++ t).data = b.data ++ (s.data ++ t.data) := by
    simp [List.append_assoc]
  rw [hdata]
  exact containsSubL_append_self b.data (s.data ++ t.data)

theorem processFile_of_none (p : String) (f : SrcFile)
    (hcs : commentSyntaxFor f.name = none) :
    processFile p f = (f, FileAction.noRule) := by
  unfold processFile
  rw [hcs]

theorem processFile_of_contains (p : String) (f : SrcFile) (cs : String)
    (hcs : commentSyntaxFor f.name = some cs)
    (hc : strContains f.contents (formatPreamble cs p) = true) :
    processFile p f = (f, FileAction.skipped) := by
  unfold processFile
  rw [hcs]
  simp [hc]

theorem processFile_of_absent (p : String) (f : SrcFile) (cs : String)
    (hcs : commentSyntaxFor f.name = some cs)
    (hc : strContains f.contents (formatPreamble cs p) = false) :
    processFile p f =
      ({ f with contents := formatPreamble cs p ++ "\n\n" ++ f.contents }, FileAction.written) := by
  unfold processFile
  rw [hcs]
  simp [hc]

theorem processFile_fst_idem (p : String) (f : SrcFile) :
    (processFile p ((processFile p f).1)).1 = (processFile p f).1 := by
  cases hcs : commentSyntaxFor f.name with
  | none =>
    rw [processFile_of_none p f hcs]
    rw [processFile_of_none p f hcs]
  | some cs =>
    cases hc : strContains f.contents (formatPreamble cs p) with
    | true =>
      rw [processFile_of_contains p f cs hcs hc]
      rw [processFile_of_contains p f cs hcs hc]
    | false =>
      rw [processFile_of_absent p f cs hcs hc]
      have hcs' : commentSyntaxFor
          ({ f with contents := formatPreamble cs p ++ "\n\n" ++ f.contents } : SrcFile).name
            = some cs := hcs
      have hc' : strContains
          ({ f with contents := formatPreamble cs p ++ "\n\n" ++ f.contents } : SrcFile).contents
            (formatPreamble cs p) = true := strContains_append₂ _ _ _
      rw [processFile_of_contains p _ cs hcs' hc']

theorem processRoot_idem (p : String) (root : Option (List SrcFile)) :
    processRoot p (processRoot p root) = processRoot p root := by
  cases root with
  | none => rfl
  | some files =>
    simp only [processRoot, Option.map_some', List.map_map]
    refine congrArg _ (List.map_congr_left fun f _ => ?_)
    exact processFile_fst_idem p f

theorem runAdd_idem (p : String) (roots : List (Option (List SrcFile))) :
    runAdd p (runAdd p roots) = runAdd p roots := by
  unfold runAdd
  rw [List.map_map]
  exact List.map_congr_left fun root _ => processRoot_idem p root

/-! Claims. -/

/-- Claim C1 (idempotent insertion): for every file whose current contents
contain the formatted preamble block for that file's comment prefix as a
substring anywhere, `add` leaves the file unchanged; consequently running
`add` twice over the same unchanged tree yields file contents after the
second run identical to those after the first. -/
theorem add_idempotent (p : String) (f : SrcFile) (cs : String)
    (hcs : commentSyntaxFor f.name = some cs)
    (hcontains : strContains f.contents (formatPreamble cs p) = true) :
    (processFile p f).1 = f ∧
      ∀ roots : List (Option (List SrcFile)), runAdd p (runAdd p roots) = runAdd p roots := by
  refine ⟨?_, fun roots => runAdd_idem p roots⟩
  rw [processFile_of_contains p f cs hcs hcontains]

theorem add_idempotent_witness :
    (processFile "X" (SrcFile.mk "a.rs" "// X\nbody")).1 = SrcFile.mk "a.rs" "// X\nbody" ∧
      runAdd "X" (runAdd "X" [some [SrcFile.mk "b.rs" "y"]])
        = runAdd "X" [some [SrcFile.mk "b.rs" "y"]] :=
  ⟨(add_idempotent "X" (SrcFile.mk "a.rs" "// X\nbody") "//" (by decide) (by decide)).1,
   (add_idempotent "X" (SrcFile.mk "a.rs" "// X\nbody") "//" (by decide) (by decide)).2
     [some [SrcFile.mk "b.rs" "y"]]⟩

/-- Claim C2 (write postcondition): for every eligible file that does not
already contain the formatted block, `add` rewrites the file so its new
content is exactly the formatted block, followed by exactly one blank line,
followed by the original content, byte for byte. -/
theorem add_write_postcondition (p : String) (f : SrcFile) (cs : String)
    (hcs : commentSyntaxFor f.name = some cs)
    (habsent : strContains f.contents (formatPreamble cs p) = false) :
    (processFile p f).1.contents = formatPreamble cs p ++ "\n\n" ++ f.contents ∧
      (processFile p f).2 = FileAction.written := by
  rw [processFile_of_absent p f cs hcs habsent]
  exact ⟨rfl, rfl⟩

theorem add_write_postcondition_witness :
    (processFile "MIT License\nCopyright" (SrcFile.mk "a.rs" "fn main() {}")).1.contents
      = "// MIT License\n// Copyright\n\nfn main() {}" := by
  have h := add_write_postcondition "MIT License\nCopyright"
    (SrcFile.mk "a.rs" "fn main() {}") "//" (by decide) (by decide)
  rw [h.1]
  decide

/-- Claim C9 (content preservation): whenever `add` rewrites a file, the
file's entire original content is preserved as a suffix of the new content;
no byte of pre-existing content is deleted, reordered, or altered for any
file, written or skipped. -/
theorem add_preserves_contents (p : String) (f : SrcFile) :
    ∃ w : String, (processFile p f).1.contents = w ++ f.contents := by
  cases hcs : commentSyntaxFor f.name with
  | none =>
    refine ⟨"", ?_⟩
    rw [processFile_of_none p f hcs]
    simp
  | some cs =>
    cases hc : strContains f.contents (formatPreamble cs p) with
    | true =>
      refine ⟨"", ?_⟩
      rw [processFile_of_contains p f cs hcs hc]
      simp
    | false =>
      refine ⟨formatPreamble cs p ++ "\n\n", ?_⟩
      rw [processFile_of_absent p f cs hcs hc]

theorem processFile_empty_preamble (f : SrcFile) : (processFile "" f).1 = f := by
  cases hcs : commentSyntaxFor f.name with
  | none => rw [processFile_of_none "" f hcs]
  | some cs =>
    rw [processFile_of_contains "" f cs hcs ?_]
    have hblock : formatPreamble cs "" = "" := rfl
    rw [hblock]
    exact strContains_empty_needle f.contents

theorem runAdd_empty_preamble (roots : List (Option (List SrcFile))) :
    runAdd "" roots = roots := by
  unfold runAdd
  have hroot : ∀ root : Option (List SrcFile), processRoot "" root = root := by
    intro root
    cases root with
    | none => rfl
    | some files =>
      simp only [processRoot, Option.map_some']
      refine congrArg _ ?_
      rw [List.map_congr_left fun f _ => processFile_empty_preamble f]
      exact List.map_id files
  rw [List.map_congr_left fun root _ => hroot root]
  exact List.map_id roots

/-- Claim C6 (extension filtering frame property): a file whose extension is
absent from the comment-mapper table (`rs`, `swift`, `js`, `ts`, `tsx`,
`jsx`), or that has no extension at all, is left unchanged by `add`
regardless of its content. -/
theorem add_ignores_unknown_extensions (p : String) (f : SrcFile)
    (h : ∀ ext : String, pathExtension f.name = some ext →
      ext ∈ ["rs", "swift", "js", "ts", "tsx", "jsx"] → False) :
    processFile p f = (f, FileAction.noRule) ∧
      extensions.map Prod.fst = ["rs", "swift", "js", "ts", "tsx", "jsx"] := by
  refine ⟨?_, rfl⟩
  apply processFile_of_none
  unfold commentSyntaxFor
  cases hpe : pathExtension f.name with
  | none => rfl
  | some ext =>
    have hfind : extensions.find? (fun entry => entry.1 == ext) = none := by
      rw [List.find?_eq_none]
      intro x hx hbeq
      apply h ext hpe
      have hx1 : x.1 = ext := by simpa using hbeq
      have hmap : x.1 ∈ extensions.map Prod.fst := List.mem_map_of_mem Prod.fst hx
      rw [hx1] at hmap
      simpa [extensions] using hmap
    simp [hfind]

theorem add_ignores_unknown_extensions_witness :
    processFile "P" (SrcFile.mk "setup.py" "print(1)")
      = (SrcFile.mk "setup.py" "print(1)", FileAction.noRule) := by
  have h := add_ignores_unknown_extensions "P" (SrcFile.mk "setup.py" "print(1)") ?_
  · exact h.1
  · intro ext hpe hmem
    rw [show pathExtension (SrcFile.mk "setup.py" "print(1)").name = some "py" from by decide]
      at hpe
    injection hpe with hext
    subst hext
    exact absurd hmem (by decide)

/-- Claim C7 (precondition of add): if no `PREAMBLE` file exists when `add`
is invoked, the operation fails fatally with a message directing the caller
to run initialization first, and performs zero file writes: it never
produces a resulting tree. -/
theorem add_requires_preamble (roots : List (Option (List SrcFile))) :
    addCommand none roots = Except.error "Run init first" ∧
      strContains "Run init first" "init" = true ∧
      ∀ result, addCommand none roots ≠ Except.ok result :=
  ⟨rfl, by decide, fun _ h => by simp [addCommand] at h⟩

theorem add_requires_preamble_witness :
    addCommand none [some [SrcFile.mk "a.rs" "x"]] = Except.error "Run init first" :=
  (add_requires_preamble [some [SrcFile.mk "a.rs" "x"]]).1

/-- Claim C8 (missing-root tolerance): a root directory that does not exist
on disk is skipped silently: the command succeeds, the missing root is left
untouched, and every other root is processed exactly as it would be without
the missing root. -/
theorem add_skips_missing_roots (p : String)
    (before after : List (Option (List SrcFile))) :
    addCommand (some p) (before ++ none :: after)
      = Except.ok (runAdd p before ++ none :: runAdd p after) := by
  simp [addCommand, runAdd, processRoot]

/-- Claim C10 (empty preamble): if the `PREAMBLE` file is empty, the
formatted block is the empty string, the containment check succeeds for
every file, every eligible file is skipped, and `add` writes no file at
all: the whole tree is unchanged. -/
theorem add_empty_preamble (cs : String) (f : SrcFile)
    (roots : List (Option (List SrcFile))) :
    formatPreamble cs "" = "" ∧
      strContains f.contents "" = true ∧
      (commentSyntaxFor f.name = some cs → processFile "" f = (f, FileAction.skipped)) ∧
      runAdd "" roots = roots := by
  refine ⟨rfl, strContains_empty_needle f.contents, ?_, runAdd_empty_preamble roots⟩
  intro hcs
  apply processFile_of_contains "" f cs hcs
  have hblock : formatPreamble cs "" = "" := rfl
  rw [hblock]
  exact strContains_empty_needle f.contents

theorem add_empty_preamble_witness :
    processFile "" (SrcFile.mk "a.rs" "fn main() {}")
        = (SrcFile.mk "a.rs" "fn main() {}", FileAction.skipped) ∧
      runAdd "" [some [SrcFile.mk "a.rs" "fn main() {}"]]
        = [some [SrcFile.mk "a.rs" "fn main() {}"]] :=
  ⟨(add_empty_preamble "//" (SrcFile.mk "a.rs" "fn main() {}") []).2.2.1 (by decide),
   (add_empty_preamble "//" (SrcFile.mk "a.rs" "fn main() {}")
     [some [SrcFile.mk "a.rs" "fn main() {}"]]).2.2.2⟩

/-- Claim C4 (license resolution): for every string equal to the title or the
`spdx-id` of at least one record in the catalog, resolution returns the
first record in catalog order whose title or identifier equals the input
exactly (case-sensitive, no normalization), and that record's title or
identifier equals the input. -/
theorem findLicense_first_match (licenses : List Document) (s : String)
    (d : Document) (hd : d ∈ licenses)
    (hm : d.metadata.title = s ∨ d.metadata.spdx_id = s) :
    ∃ r earlier later, findLicense licenses s = some r ∧
      (r.metadata.title = s ∨ r.metadata.spdx_id = s) ∧
      licenses = earlier ++ r :: later ∧
      ∀ x ∈ earlier, ¬(x.metadata.title = s ∨ x.metadata.spdx_id = s) := by
  induction licenses with
  | nil => cases hd
  | cons a rest ih =>
    by_cases ha : a.metadata.title = s ∨ a.metadata.spdx_id = s
    · refine ⟨a, [], rest, ?_, ha, rfl, by simp⟩
      unfold findLicense
      have hpa : (a.metadata.title == s || a.metadata.spdx_id == s) = true := by
        rcases ha with h | h <;> simp [h]
      simp [List.find?_cons, hpa]
    · have hd' : d ∈ rest := by
        cases hd with
        | head => exact absurd hm ha
        | tail _ htl => exact htl
      obtain ⟨r, earlier, later, hfind, hrm, heq, hnone⟩ := ih hd'
      have hpa : (a.metadata.title == s || a.metadata.spdx_id == s) = false := by
        simpa [not_or] using ha
      refine ⟨r, a :: earlier, later, ?_, hrm, ?_, ?_⟩
      · unfold findLicense at hfind ⊢
        simp [List.find?_cons, hpa, hfind]
      · rw [heq, List.cons_append]
      · intro x hx
        cases hx with
        | head => exact ha
        | tail _ htl => exact hnone x htl

theorem findLicense_first_match_witness :
    ∃ r earlier later, findLicense [sampleMIT] "MIT" = some r ∧
      (r.metadata.title = "MIT" ∨ r.metadata.spdx_id = "MIT") ∧
      [sampleMIT] = earlier ++ r :: later ∧
      ∀ x ∈ earlier, ¬(x.metadata.title = "MIT" ∨ x.metadata.spdx_id = "MIT") :=
  findLicense_first_match [sampleMIT] "MIT" sampleMIT (List.mem_singleton.mpr rfl)
    (Or.inr rfl)

/-- Claim C5 (resolution failure): for every string matching no catalog
record's title or identifier, resolution fails with the configuration-error
message directing the caller to the `list` command, and never with any
other outcome. -/
theorem resolveLicense_unknown (licenses : List Document) (s : String)
    (h : ∀ d ∈ licenses, ¬(d.metadata.title = s ∨ d.metadata.spdx_id = s)) :
    resolveLicense licenses s = Except.error invalidLicenseMsg ∧
      strContains invalidLicenseMsg "list" = true := by
  refine ⟨?_, by decide⟩
  unfold resolveLicense
  have hfind : findLicense licenses s = none := by
    unfold findLicense
    rw [List.find?_eq_none]
    intro x hx hbeq
    exact h x hx (by simpa using hbeq)
  rw [hfind]

theorem resolveLicense_unknown_witness :
    resolveLicense [sampleMIT] "GPL-9.0" = Except.error invalidLicenseMsg ∧
      strContains invalidLicenseMsg "list" = true :=
  resolveLicense_unknown [sampleMIT] "GPL-9.0" (by
    intro d hd
    rw [List.mem_singleton] at hd
    subst hd
    decide)

theorem splitCh_ne_nil (sep : Char) (l : List Char) : splitCh sep l ≠ [] := by
  cases l with
  | nil => simp [splitCh]
  | cons c rest =>
    unfold splitCh
    split
    · simp
    · split
      · simp
      · simp

theorem trimEndL_append_cr (y : List Char) : trimEndL (y ++ ['\r']) = trimEndL y := by
  have hr : rustIsWhitespace '\r' = true := by decide
  unfold trimEndL
  rw [List.reverse_append]
  simp [List.dropWhile_cons, hr]

theorem trimEndL_stripCRL (x line : List Char) :
    trimEndL (x ++ ' ' :: stripCRL line) = trimEndL (x ++ ' ' :: line) := by
  unfold stripCRL
  split
  · rename_i hl
    obtain ⟨ys, rfl⟩ := List.getLast?_eq_some_iff.mp hl
    rw [List.dropLast_concat]
    have h1 : x ++ ' ' :: (ys ++ ['\r']) = (x ++ ' ' :: ys) ++ ['\r'] := by simp
    rw [h1, trimEndL_append_cr]
  · rfl

theorem trimL_of_head_not_ws (c : Char) (l : List Char)
    (hws : rustIsWhitespace c = false) :
    trimL (c :: l) = trimEndL (c :: l) := by
  unfold trimL trimStartL
  rw [List.dropWhile_cons, hws]
  simp

theorem rustLines_map_trimEnd (csd pd : List Char) :
    (rustLinesL pd).map (fun line => trimEndL (csd ++ ' ' :: line))
      = (specLinesL pd).map (fun line => trimEndL (csd ++ ' ' :: line)) := by
  unfold rustLinesL specLinesL
  by_cases h0 : pd = []
  · simp [h0]
  · rw [if_neg h0, if_neg h0]
    by_cases h1 : pd.getLast? = some '\n'
    · rw [if_pos h1, if_pos h1]
      rw [List.map_map]
      exact List.map_congr_left fun line _ => trimEndL_stripCRL csd line
    · rw [if_neg h1, if_neg h1]
      have hne : splitNL pd ≠ [] := splitCh_ne_nil '\n' pd
      have hlast : (splitNL pd).getLastD [] = (splitNL pd).getLast hne := by
        rw [List.getLastD_eq_getLast?, List.getLast?_eq_getLast (splitNL pd) hne]
        rfl
      conv_rhs => rw [← List.dropLast_concat_getLast hne]
      rw [List.map_append, List.map_append, List.map_map, hlast]
      refine congrArg (fun ls => ls ++ _) ?_
      exact List.map_congr_left fun line _ => trimEndL_stripCRL csd line

/-- The formatter claim fails as universally stated: for a comment prefix
that itself begins with whitespace, the code's `trim` also strips leading
whitespace, while the stated algorithm (strip trailing whitespace only)
keeps it. -/
theorem formatter_spec_counterexample :
    formatPreamble " " "x" ≠ specFormattedBlock " " "x" := by decide

/-- Claim C3 (formatter algorithm, amended): for every preamble text and
every comment prefix whose first character is not whitespace (which holds
for every prefix in the extension table), the formatted block is obtained
by splitting the text into lines on line-feed boundaries, prefixing each
line with the comment prefix and a single space, stripping trailing
whitespace from the result (the code strips leading whitespace as well,
which under this condition strips nothing), and rejoining the lines with a
single line-feed separator; an empty input line becomes the bare prefix. -/
theorem formatPreamble_matches_spec (cs p : String) (c : Char)
    (hhead : cs.data.head? = some c) (hws : rustIsWhitespace c = false) :
    formatPreamble cs p = specFormattedBlock cs p := by
  unfold formatPreamble specFormattedBlock
  refine congrArg String.mk ?_
  unfold formatPreambleL specFormattedBlockL
  have hmap1 : (rustLinesL p.data).map (fun line => trimL (cs.data ++ ' ' :: line))
      = (rustLinesL p.data).map (fun line => trimEndL (cs.data ++ ' ' :: line)) := by
    refine List.map_congr_left fun line _ => ?_
    obtain ⟨t, ht⟩ : ∃ t, cs.data = c :: t := by
      cases hcd : cs.data with
      | nil => rw [hcd] at hhead; cases hhead
      | cons a t =>
        rw [hcd] at hhead
        injection hhead with ha
        exact ⟨t, by rw [ha]⟩
    rw [ht, List.cons_append]
    exact trimL_of_head_not_ws c _ hws
  rw [hmap1, rustLines_map_trimEnd]

theorem formatPreamble_matches_spec_witness :
    formatPreamble "//" "MIT License\nCopyright (c) 2024\n"
      = specFormattedBlock "//" "MIT License\nCopyright (c) 2024\n" :=
  formatPreamble_matches_spec "//" "MIT License\nCopyright (c) 2024\n" '/'
    (by decide) (by decide)
